/-
  Verification of the subscription and block-walking engine of
  stever-node-tools against its natural-language specification.

  The development shallowly embeds the relevant Rust code:
  - machine integers (u32, u64, usize) are modelled as Nat with explicit
    `% 2 ^ 32` / `% 2 ^ 64` wherever the source can wrap;
  - hash maps (FxDashMap, FxHashMap) are modelled as association lists with
    first-match lookup; map removal and update are total list operations;
  - the oneshot senders stored in pending messages are modelled by numeric
    sender identities, and every value pushed through a sender is recorded
    in an explicit delivery log;
  - network responses (RLDP answers, fetched blocks, node stats) are inputs
    of the embedded functions, so one Rust async call becomes one step of a
    pure transition function.
-/
import Mathlib

namespace StvrSpec

/-- usize / u64 modulus of the target platform. -/
def USIZE : Nat := 2 ^ 64

/-- u32 modulus; `gen_utime`, `expire_at` and chain times are u32 seconds. -/
def U32 : Nat := 2 ^ 32

/-- `pending_message_count.fetch_add(1, ...)` on a usize counter. -/
def ctrAdd (c : Nat) : Nat := (c + 1) % USIZE

/-- `pending_message_count.fetch_sub(1, ...)` on a usize counter
(wrapping subtraction, as `usize::fetch_sub` wraps at zero). -/
def ctrSub (c : Nat) : Nat := (c + (USIZE - 1)) % USIZE

/-- First entry of an association list with the given key; embeds hash-map
lookup (`HashMap::get` / `DashMap::get`), which returns the unique entry when
keys are unique. -/
def findEntry {κ α : Type} [DecidableEq κ] (k : κ) (m : List (κ × α)) : Option (κ × α) :=
  m.find? (fun p => decide (p.1 = k))

/-- Removal of a key from an association list (`HashMap::remove`). -/
def eraseKey {κ α : Type} [DecidableEq κ] (k : κ) (m : List (κ × α)) : List (κ × α) :=
  m.filter (fun p => decide (p.1 ≠ k))

/-- Replacement of the value stored under an existing key (writing through a
`get_mut` / occupied-entry reference). -/
def setKey {κ α : Type} [DecidableEq κ] (k : κ) (v : α) (m : List (κ × α)) : List (κ × α) :=
  m.map (fun p => if p.1 = k then (k, v) else p)

/-! ### Adaptive timeout policy (src/node_udp_rpc/mod.rs, `DownloaderTimeouts`) -/

/-- `DownloaderTimeouts { initial, max, multiplier }`.  The f64 `multiplier`
is modelled as the exact rational `multNum / multDen`; for every multiplier
and every state reachable in the theorems below the f64 computation
`(initial as f64 * multiplier) as u64` yields the same value as the exact
rational computation `initial * multNum / multDen`. -/
structure DownloaderTimeouts where
  initial : Nat
  max : Nat
  multNum : Nat
  multDen : Nat
deriving DecidableEq

/-- `DownloaderTimeouts::update`:
`self.initial = min(self.max, (self.initial as f64 * self.multiplier) as u64)`. -/
def DownloaderTimeouts.update (t : DownloaderTimeouts) : DownloaderTimeouts :=
  { t with initial := min t.max (t.initial * t.multNum / t.multDen) }

/-- `BLOCK_TIMEOUTS`: initial = 200 ms, max = 1000 ms, multiplier = 1.2. -/
def BLOCK_TIMEOUTS : DownloaderTimeouts := ⟨200, 1000, 6, 5⟩

/-- The state of the policy after `n` backoff updates. -/
def updateIter (t : DownloaderTimeouts) (n : Nat) : DownloaderTimeouts :=
  DownloaderTimeouts.update^[n] t

/-- The closed-form value `min(max, floor(I * multiplier ^ n))` asserted by the
specification (multiplier again as the exact rational `num / den`). -/
def claimedBackoffValue (I mx num den n : Nat) : Nat :=
  min mx (I * num ^ n / den ^ n)

/-- The actual orbit of `BLOCK_TIMEOUTS.initial` for n = 0..8; from n = 9 on
the value is pinned at the cap 1000. -/
def blockBackoffTable : List Nat := [200, 240, 288, 345, 414, 496, 595, 714, 856]

/-! ### RLDP roundtrip estimate (src/node_udp_rpc/mod.rs, `NodeInner::rldp_query`) -/

/-- The estimate update performed by one `rldp_query` call, given the observed
roundtrip of an answered query (`some observed`) or no answer (`none`):
```
if answer.is_some() {
    if *current_roundtrip > 0 {
        *current_roundtrip = (*current_roundtrip + roundtrip) / 2;
    } else {
        *current_roundtrip = roundtrip;
    }
}
```
The u64 sum wraps, hence the explicit `% USIZE`. -/
def rldp_estimate_step (est : Nat) (resp : Option Nat) : Nat :=
  match resp with
  | none => est
  | some observed => if 0 < est then ((est + observed) % USIZE) / 2 else observed

/-- The roundtrip estimate after a sequence of `rldp_query` calls, starting
from the initial estimate 0 (`roundtrip: Default::default()`). -/
def rldp_estimate_run (resps : List (Option Nat)) : Nat :=
  resps.foldl rldp_estimate_step 0

/-- The left-nested floor-average `((...((o1+o2)/2+o3)/2...)+on)/2` asserted by
the specification for observations `o1, ..., on` (and `o1` itself for n = 1). -/
def nestedAvg : List Nat → Nat
  | [] => 0
  | o :: os => os.foldl (fun e x => (e + x) / 2) o

/-! ### Cached masterchain tip installs (src/subscription.rs,
`Subscription::get_last_mc_block` and `Subscription::make_blocks_step`) -/

/-- `LAST_MC_BLOCK_TTL_SEC`. -/
def LAST_MC_BLOCK_TTL_SEC : Nat := 10

/-- One install of the cached masterchain tip, with the network-supplied
generation time of the installed block as input:
- `refresh now fetched`: the cache-refresh path of `get_last_mc_block`
  (stats → fetch `last_mc_block` → store), which runs only when the cache is
  empty or stale at wall-clock time `now`;
- `stepStore nextUtime`: the final `last_mc_block.store` of
  `make_blocks_step`, which requires a current tip to exist. -/
inductive TipInstall where
  | refresh (now fetched : Nat)
  | stepStore (nextUtime : Nat)
deriving DecidableEq

/-- The `gen_utime` a given install event stores. -/
def tipValue : TipInstall → Nat
  | .refresh _ g => g
  | .stepStore g => g

/-- Guard of an install event against the current cached tip, from the source:
the refresh path runs unless `last_mc_block.gen_utime + LAST_MC_BLOCK_TTL_SEC
> now` (u32 addition), and the step path needs `get_last_mc_block` to have
produced a tip. -/
def tipGuard (tip : Option Nat) (e : TipInstall) : Bool :=
  match e with
  | .refresh now _ =>
    match tip with
    | some g => ! decide ((g + LAST_MC_BLOCK_TTL_SEC) % U32 > now)
    | none => true
  | .stepStore _ => tip.isSome

/-- Runs a sequence of install events from a cached-tip state, returning the
sequence of stored `gen_utime` values when every guard holds. -/
def tipRun : Option Nat → List TipInstall → Option (List Nat)
  | _, [] => some []
  | tip, e :: es =>
    if tipGuard tip e then (tipRun (some (tipValue e)) es).map (fun s => tipValue e :: s)
    else none

/-- States that every install of a run stores a generation time strictly above
the currently cached one — the chain-data assumption under which monotonicity
holds (the code itself never compares the two). -/
def tipRunIncr : Option Nat → List TipInstall → Bool
  | _, [] => true
  | tip, e :: es =>
    (match tip with
     | some g => decide (g < tipValue e)
     | none => true) && tipRunIncr (some (tipValue e)) es

/-- Strict increase of consecutive elements. -/
def strictIncr : List Nat → Bool
  | [] => true
  | [_] => true
  | a :: b :: rest => decide (a < b) && strictIncr (b :: rest)

/-- Non-decrease of consecutive elements. -/
def nonDecr : List Nat → Bool
  | [] => true
  | [_] => true
  | a :: b :: rest => decide (a ≤ b) && nonDecr (b :: rest)

/-! ### Theorems for claims C2, C3, C4 -/

theorem updateIter_fields (n : Nat) :
    (updateIter BLOCK_TIMEOUTS n).max = 1000 ∧
    (updateIter BLOCK_TIMEOUTS n).multNum = 6 ∧
    (updateIter BLOCK_TIMEOUTS n).multDen = 5 := by
  induction n with
  | zero => exact ⟨rfl, rfl, rfl⟩
  | succ k ih =>
    have h : updateIter BLOCK_TIMEOUTS (k + 1)
        = (updateIter BLOCK_TIMEOUTS k).update := by
      simp [updateIter, Function.iterate_succ_apply']
    rw [h]
    exact ⟨ih.1, ih.2.1, ih.2.2⟩

theorem updateIter_cap (n : Nat) (h : 9 ≤ n) :
    (updateIter BLOCK_TIMEOUTS n).initial = 1000 := by
  induction n, h using Nat.le_induction with
  | base => decide
  | succ k hk ih =>
    have h : updateIter BLOCK_TIMEOUTS (k + 1)
        = (updateIter BLOCK_TIMEOUTS k).update := by
      simp [updateIter, Function.iterate_succ_apply']
    obtain ⟨hmax, hnum, hden⟩ := updateIter_fields k
    rw [h, DownloaderTimeouts.update, hmax, hnum, hden, ih]
    decide

/-- Claim C3 (counterexample): with the block-download constants
(initial = 200, max = 1000, multiplier = 1.2), after n = 5 non-success
attempts the code holds 496 (flooring at every step), while the claimed
closed form min(max, floor(I * multiplier ^ n)) gives 497. -/
theorem backoff_closed_form_counterexample :
    (updateIter BLOCK_TIMEOUTS 5).initial = 496 ∧
    claimedBackoffValue 200 1000 6 5 5 = 497 ∧ (496 : Nat) ≠ 497 := by
  decide

/-- Claim C3 (amended): the value after n updates is the n-fold iterate of
`x ↦ min(max, floor(x * multiplier))` — flooring at every step, not once at
the end; with the block-download constants this determines the value after
every n: the table 200, 240, 288, 345, 414, 496, 595, 714, 856 for n ≤ 8 and
the cap 1000 for every n ≥ 9. -/
theorem block_backoff_values (n : Nat) :
    (updateIter BLOCK_TIMEOUTS n).initial = blockBackoffTable.getD n 1000 := by
  rcases Nat.lt_or_ge n 9 with h | h
  · have hsmall : ∀ m, m < 9 →
        (updateIter BLOCK_TIMEOUTS m).initial = blockBackoffTable.getD m 1000 := by
      decide
    exact hsmall n h
  · have hlen : blockBackoffTable.length ≤ n := h
    rw [List.getD_eq_default _ _ hlen]
    exact updateIter_cap n h

/-- Claim C4 (counterexample): with observed roundtrips 0 then 4 (both calls
answered), the code's estimate is 4 — an observation of 0 leaves the estimate
at 0, so the next answered call again sets it directly — while the claimed
left-nested average gives (0+4)/2 = 2. -/
theorem rldp_estimate_counterexample :
    rldp_estimate_run [some 0, some 4] = 4 ∧
    nestedAvg [0, 4] = 2 ∧ (4 : Nat) ≠ 2 := by
  decide

theorem rldp_fold_pos (resps : List (Option Nat)) :
    ∀ est : Nat, 0 < est → est < 2 ^ 63 →
    (∀ o ∈ resps.filterMap id, 0 < o ∧ o < 2 ^ 63) →
    resps.foldl rldp_estimate_step est
      = (resps.filterMap id).foldl (fun e x => (e + x) / 2) est := by
  induction resps with
  | nil => intro est _ _ _; rfl
  | cons r rs ih =>
    intro est hpos hlt hb
    cases r with
    | none =>
      simpa using ih est hpos hlt (by simpa using hb)
    | some o =>
      have hbo : 0 < o ∧ o < 2 ^ 63 := hb o (by simp)
      have hsum : est + o < USIZE := by
        have : (2 : Nat) ^ 63 + 2 ^ 63 = USIZE := by decide
        omega
      have hstep : rldp_estimate_step est (some o) = (est + o) / 2 := by
        simp [rldp_estimate_step, hpos, Nat.mod_eq_of_lt hsum]
      have hpos2 : 0 < (est + o) / 2 := by
        have h2 : 2 ≤ est + o := by omega
        omega
      have hlt2 : (est + o) / 2 < 2 ^ 63 := by
        have : est + o < 2 ^ 63 * 2 := by
          have : (2 : Nat) ^ 63 * 2 = USIZE := by decide
          omega
        exact Nat.div_lt_of_lt_mul this
      have hb2 : ∀ o ∈ rs.filterMap id, 0 < o ∧ o < 2 ^ 63 := by
        intro x hx; exact hb x (by simp [hx])
      calc (some o :: rs).foldl rldp_estimate_step est
          = rs.foldl rldp_estimate_step ((est + o) / 2) := by
            simp [List.foldl_cons, hstep]
        _ = (rs.filterMap id).foldl (fun e x => (e + x) / 2) ((est + o) / 2) :=
            ih _ hpos2 hlt2 hb2
        _ = ((some o :: rs).filterMap id).foldl (fun e x => (e + x) / 2) est := by
            simp

/-- Claim C4 (amended): a call whose answer is None leaves the estimate
unchanged, and provided every observed roundtrip is positive (and below 2^63,
so the u64 averaging sum cannot wrap), after answered observations
o1, ..., on the estimate equals the left-nested floor average
`((...((o1+o2)/2+o3)/2...)+on)/2`. -/
theorem rldp_estimate_nested_avg (resps : List (Option Nat))
    (hb : ∀ o ∈ resps.filterMap id, 0 < o ∧ o < 2 ^ 63) :
    rldp_estimate_run resps = nestedAvg (resps.filterMap id) ∧
    (∀ est : Nat, rldp_estimate_step est none = est) := by
  refine ⟨?_, fun _ => rfl⟩
  induction resps with
  | nil => rfl
  | cons r rs ih =>
    cases r with
    | none =>
      simpa [rldp_estimate_run] using ih (by simpa using hb)
    | some o =>
      have hbo : 0 < o ∧ o < 2 ^ 63 := hb o (by simp)
      have hstep : rldp_estimate_step 0 (some o) = o := by
        simp [rldp_estimate_step]
      have hb2 : ∀ x ∈ rs.filterMap id, 0 < x ∧ x < 2 ^ 63 := by
        intro x hx; exact hb x (by simp [hx])
      calc rldp_estimate_run (some o :: rs)
          = rs.foldl rldp_estimate_step o := by
            simp [rldp_estimate_run, List.foldl_cons, hstep]
        _ = (rs.filterMap id).foldl (fun e x => (e + x) / 2) o :=
            rldp_fold_pos rs o hbo.1 hbo.2 hb2
        _ = nestedAvg ((some o :: rs).filterMap id) := by
            simp [nestedAvg]

/-- Witness for the amended claim C4 at the concrete call sequence
None, answered 6, None, answered 10: the estimate ends at (6+10)/2 = 8. -/
theorem rldp_estimate_nested_avg_witness :
    (∀ o ∈ ([none, some 6, none, some 10] : List (Option Nat)).filterMap id,
      0 < o ∧ o < 2 ^ 63) ∧
    rldp_estimate_run [none, some 6, none, some 10] = nestedAvg [6, 10] := by
  have hb : ∀ o ∈ ([none, some 6, none, some 10] : List (Option Nat)).filterMap id,
      0 < o ∧ o < 2 ^ 63 := by decide
  exact ⟨hb, (rldp_estimate_nested_avg [none, some 6, none, some 10] hb).1⟩

/-- Claim C2 (counterexample): a valid run of two cache-refresh installs — the
second legal because the first tip is stale (100 + 10 ≤ 200) — stores
gen_utime 100 and then 50: the code never compares the fetched block's
generation time against the stored one, so the installed sequence need not be
monotone. -/
theorem tip_install_not_monotone :
    tipRun none [TipInstall.refresh 0 100, TipInstall.refresh 200 50]
      = some [100, 50] ∧
    nonDecr [100, 50] = false ∧ strictIncr [100, 50] = false := by
  decide

theorem tipRun_strictIncr_aux (es : List TipInstall) :
    ∀ g seq, tipRun (some g) es = some seq → tipRunIncr (some g) es = true →
    strictIncr (g :: seq) = true := by
  induction es with
  | nil =>
    intro g seq hrun _
    have h0 : ([] : List Nat) = seq := by simpa [tipRun] using hrun
    subst h0
    rfl
  | cons e es ih =>
    intro g seq hrun hincr
    simp only [tipRun] at hrun
    by_cases hg : tipGuard (some g) e = true
    · rw [if_pos hg] at hrun
      obtain ⟨s, hs, hseq⟩ := Option.map_eq_some'.mp hrun
      simp only [tipRunIncr, Bool.and_eq_true, decide_eq_true_eq] at hincr
      have hrest := ih (tipValue e) s hs hincr.2
      rw [← hseq]
      simp only [strictIncr, Bool.and_eq_true, decide_eq_true_eq]
      exact ⟨hincr.1, hrest⟩
    · rw [if_neg hg] at hrun
      exact absurd hrun (by simp)

theorem strictIncr_nonDecr (l : List Nat) (h : strictIncr l = true) :
    nonDecr l = true := by
  induction l with
  | nil => rfl
  | cons a rest ih =>
    cases rest with
    | nil => rfl
    | cons b rest2 =>
      simp only [strictIncr, Bool.and_eq_true, decide_eq_true_eq] at h
      simp only [nonDecr, Bool.and_eq_true, decide_eq_true_eq]
      exact ⟨Nat.le_of_lt h.1, ih h.2⟩

/-- Claim C2 (amended): the code performs no monotonicity check of its own,
so monotonicity of the cached tip's gen_utime holds exactly under the
chain-data assumption that every installed block's generation time strictly
exceeds the currently stored one; under that assumption the sequence of
stored gen_utime values is strictly increasing (hence non-decreasing). -/
theorem tip_install_monotone (es : List TipInstall) (seq : List Nat)
    (hrun : tipRun none es = some seq) (hincr : tipRunIncr none es = true) :
    strictIncr seq = true ∧ nonDecr seq = true := by
  have hmain : strictIncr seq = true := by
    cases es with
    | nil =>
      have h0 : ([] : List Nat) = seq := by simpa [tipRun] using hrun
      subst h0
      rfl
    | cons e es2 =>
      simp only [tipRun] at hrun
      by_cases hg : tipGuard none e = true
      · rw [if_pos hg] at hrun
        obtain ⟨s, hs, hseq⟩ := Option.map_eq_some'.mp hrun
        simp only [tipRunIncr, Bool.and_eq_true] at hincr
        have := tipRun_strictIncr_aux es2 (tipValue e) s hs hincr.2
        rw [← hseq]
        exact this
      · rw [if_neg hg] at hrun
        exact absurd hrun (by simp)
  exact ⟨hmain, strictIncr_nonDecr seq hmain⟩

/-- Witness for the amended claim C2: a refresh install of gen_utime 100
followed by a step install of gen_utime 150 is a valid, strictly increasing
run. -/
theorem tip_install_monotone_witness :
    tipRun none [TipInstall.refresh 0 100, TipInstall.stepStore 150]
      = some [100, 150] ∧
    tipRunIncr none [TipInstall.refresh 0 100, TipInstall.stepStore 150] = true ∧
    strictIncr [100, 150] = true := by
  refine ⟨by decide, by decide, ?_⟩
  exact (tip_install_monotone [TipInstall.refresh 0 100, TipInstall.stepStore 150]
    [100, 150] (by decide) (by decide)).1

/-! ### Shards edge (src/subscription.rs, `Edge::is_before`) and the DAG
push step of `make_blocks_step` -/

/-- `ton_block::ShardIdent`: a workchain id and a shard bit-prefix (u64 with
tag bit).  The claims only need its identity, so the shard-intersection test
of the external `ton_block` library stays a parameter of the operations that
call it. -/
structure ShardIdent where
  workchain : Int
  shardBits : Nat
deriving DecidableEq

/-- The part of `ton_block::BlockIdExt` read by `Edge::is_before`. -/
structure BlockIdExt where
  shard_id : ShardIdent
  seq_no : Nat
deriving DecidableEq

/-- `Edge(FxHashMap<ShardIdent, u32>)`: shard → top seq_no at the previous
masterchain height, as an association list in the map's iteration order. -/
abbrev Edge := List (ShardIdent × Nat)

/-- `Edge::is_before`:
```
match self.0.get(&id.shard_id) {
    Some(&top_seq_no) => top_seq_no < id.seq_no,
    None => self.0.iter()
        .find(|&(shard, _)| id.shard_id.intersect_with(shard))
        .map(|(_, &top_seq_no)| top_seq_no < id.seq_no)
        .unwrap_or_default(),
}
```
`intersect` stands for the external `ShardIdent::intersect_with`. -/
def is_before (intersect : ShardIdent → ShardIdent → Bool) (e : Edge)
    (id : BlockIdExt) : Bool :=
  match findEntry id.shard_id e with
  | some p => decide (p.2 < id.seq_no)
  | none =>
    match e.find? (fun p => intersect id.shard_id p.1) with
    | some p => decide (p.2 < id.seq_no)
    | none => false

/-- The brief-info view of a fetched shard block used by the DAG walk of
`make_blocks_step`. -/
structure BriefBlockInfo where
  gen_utime : Nat
  prev1 : BlockIdExt
  prev2 : Option BlockIdExt
deriving DecidableEq

/-- The previous-block ids one DAG iteration of `make_blocks_step` pushes on
its stack: `prev1` if it is before the edge, then `prev2` likewise. -/
def pushedPrevIds (intersect : ShardIdent → ShardIdent → Bool) (e : Edge)
    (info : BriefBlockInfo) : List BlockIdExt :=
  (if is_before intersect e info.prev1 then [info.prev1] else []) ++
  (match info.prev2 with
   | some p => if is_before intersect e p then [p] else []
   | none => [])

/-! ### Block fetcher loop (src/node_udp_rpc/mod.rs, `NodeUdpRpc::get_next_block`) -/

/-- The outcome of one `rldp_query` iteration of `get_next_block`, as seen by
the loop body:
- `transportErr`: `rldp_query` itself returned `Err` ("rldp query failed");
- `timeout`: `Ok(None)` — no answer;
- `parseErr`: the answer failed to deserialize as `DataFull`;
- `dataEmpty`: the answer parsed as `DataFull::Empty`;
- `found c`: the answer parsed as `DataFull::Found`, with `c = some b` when
  `BlockStuff::new` (parsing the carried block bytes) succeeds with block `b`
  and `c = none` when that final parsing step fails. -/
inductive NextBlockResp where
  | transportErr
  | timeout
  | parseErr
  | dataEmpty
  | found (constructed : Option Nat)
deriving DecidableEq

/-- The responses on which the loop sleeps and retries. -/
def isRetryableResp : NextBlockResp → Bool
  | .timeout => true
  | .dataEmpty => true
  | _ => false

/-- Result of running `get_next_block` against a finite script of responses:
either it returned a block, or surfaced an error, or consumed the whole
script and is still looping with the given policy state and attempt counter. -/
inductive NextBlockOutcome where
  | returned (b : Nat)
  | errored
  | exhausted (t : DownloaderTimeouts) (attempt : Nat)
deriving DecidableEq

/-- The `get_next_block` retry loop run against a script of responses, one per
`rldp_query` call; `timeouts.sleep_and_update()` becomes a policy update (the
sleep itself has no observable effect here) and `attempt += 1`. -/
def get_next_block_run : List NextBlockResp → DownloaderTimeouts → Nat → NextBlockOutcome
  | [], t, attempt => .exhausted t attempt
  | r :: rs, t, attempt =>
    match r with
    | .transportErr => .errored
    | .parseErr => .errored
    | .found none => .errored
    | .found (some b) => .returned b
    | .timeout => get_next_block_run rs t.update (attempt + 1)
    | .dataEmpty => get_next_block_run rs t.update (attempt + 1)

/-- Claim C9: `get_next_block` decides at the first response that is neither
`DataFull::Empty` nor an absent answer: it returns the constructed block on a
fully parsed `DataFull::Found`, errors exactly on transport failure or a
parse failure (of the `DataFull` payload or of the carried block bytes), and
on every `Empty`/absent response it sleeps per policy, increments the attempt
counter and retries — such a response is never surfaced as an error, so a
script of only such responses leaves the loop running with `n` policy updates
and `n` attempt increments. -/
theorem get_next_block_spec (rs : List NextBlockResp) (t : DownloaderTimeouts)
    (attempt : Nat) :
    get_next_block_run rs t attempt =
      match rs.dropWhile isRetryableResp with
      | [] => .exhausted (updateIter t rs.length) (attempt + rs.length)
      | NextBlockResp.found (some b) :: _ => .returned b
      | _ :: _ => .errored := by
  induction rs generalizing t attempt with
  | nil => rfl
  | cons r rs ih =>
    cases r with
    | transportErr => rfl
    | parseErr => rfl
    | found c => cases c <;> rfl
    | timeout =>
      have hstep : get_next_block_run (NextBlockResp.timeout :: rs) t attempt
          = get_next_block_run rs t.update (attempt + 1) := rfl
      rw [hstep, ih]
      have hdrop : (NextBlockResp.timeout :: rs).dropWhile isRetryableResp
          = rs.dropWhile isRetryableResp := rfl
      rw [hdrop]
      have hiter : updateIter t.update rs.length
          = updateIter t (NextBlockResp.timeout :: rs).length := by
        simp [updateIter, List.length_cons, Function.iterate_succ_apply]
      have harith : attempt + 1 + rs.length
          = attempt + (NextBlockResp.timeout :: rs).length := by
        simp [List.length_cons]; omega
      rw [hiter, harith]
    | dataEmpty =>
      have hstep : get_next_block_run (NextBlockResp.dataEmpty :: rs) t attempt
          = get_next_block_run rs t.update (attempt + 1) := rfl
      rw [hstep, ih]
      have hdrop : (NextBlockResp.dataEmpty :: rs).dropWhile isRetryableResp
          = rs.dropWhile isRetryableResp := rfl
      rw [hdrop]
      have hiter : updateIter t.update rs.length
          = updateIter t (NextBlockResp.dataEmpty :: rs).length := by
        simp [updateIter, List.length_cons, Function.iterate_succ_apply]
      have harith : attempt + 1 + rs.length
          = attempt + (NextBlockResp.dataEmpty :: rs).length := by
        simp [List.length_cons]; omega
      rw [hiter, harith]

theorem findEntry_some {κ α : Type} [DecidableEq κ] {k : κ} {m : List (κ × α)}
    {p : κ × α} (h : findEntry k m = some p) : p ∈ m ∧ p.1 = k := by
  refine ⟨List.mem_of_find?_eq_some h, ?_⟩
  have := List.find?_some h
  exact of_decide_eq_true this

theorem findEntry_eq_none {κ α : Type} [DecidableEq κ] {k : κ} {m : List (κ × α)} :
    findEntry k m = none ↔ ∀ p ∈ m, p.1 ≠ k := by
  constructor
  · intro h p hp
    have := List.find?_eq_none.mp h p hp
    simpa using this
  · intro h
    exact List.find?_eq_none.mpr (fun p hp => by simpa using h p hp)

theorem findEntry_first {κ α : Type} [DecidableEq κ] {m : List (κ × α)}
    (hnd : (m.map Prod.fst).Nodup) {p : κ × α} (hp : p ∈ m) :
    findEntry p.1 m = some p := by
  induction m with
  | nil => cases hp
  | cons q rest ih =>
    rcases List.mem_cons.mp hp with h | h
    · subst h
      simp [findEntry, List.find?_cons]
    · have hnd2 : (rest.map Prod.fst).Nodup := (List.nodup_cons.mp hnd).2
      have hne : q.1 ≠ p.1 := by
        intro hq
        have : q.1 ∈ rest.map Prod.fst := by
          rw [hq]
          exact List.mem_map_of_mem Prod.fst h
        exact (List.nodup_cons.mp hnd).1 this
      have : findEntry p.1 rest = some p := ih hnd2 h
      simp [findEntry, List.find?_cons, hne, Ne.symm hne] at this ⊢
      exact this

/-- Claim C6: if the edge has an entry for the id's exact shard, `is_before`
is true iff that entry's stored sequence number is strictly below the id's
seq_no; and when there is no exact entry but some stored shard intersects the
queried shard, the predicate equals the same strict comparison against one of
the stored intersecting shards. -/
theorem is_before_spec (intersect : ShardIdent → ShardIdent → Bool) (e : Edge)
    (id : BlockIdExt) (hnd : (e.map Prod.fst).Nodup) :
    (∀ p ∈ e, p.1 = id.shard_id →
      is_before intersect e id = decide (p.2 < id.seq_no)) ∧
    ((∀ p ∈ e, p.1 ≠ id.shard_id) →
      ∀ q ∈ e, intersect id.shard_id q.1 = true →
      ∃ p ∈ e, intersect id.shard_id p.1 = true ∧
        is_before intersect e id = decide (p.2 < id.seq_no)) := by
  constructor
  · intro p hp hk
    have hfind : findEntry id.shard_id e = some p := by
      have := findEntry_first hnd hp
      rwa [hk] at this
    simp [is_before, hfind]
  · intro hnone q hq hint
    have hfind : findEntry id.shard_id e = none :=
      findEntry_eq_none.mpr hnone
    have hsome : (e.find? (fun p => intersect id.shard_id p.1)).isSome := by
      rw [List.find?_isSome]
      exact ⟨q, hq, hint⟩
    obtain ⟨p, hp⟩ := Option.isSome_iff_exists.mp hsome
    refine ⟨p, List.mem_of_find?_eq_some hp, ?_, ?_⟩
    · have hpred := List.find?_some hp
      simpa using hpred
    · simp [is_before, hfind, hp]

/-- Witness for claim C6 on a concrete edge: the exact-entry branch decides
a block strictly after its shard's stored top, and on an edge without the
exact shard the intersecting entry decides. -/
theorem is_before_spec_witness :
    ((([(⟨0, 3⟩, 5)] : Edge).map Prod.fst).Nodup ∧
      (⟨0, 3⟩, 5) ∈ ([(⟨0, 3⟩, 5)] : Edge)) ∧
    is_before (fun a b => decide (a.workchain = b.workchain)) [(⟨0, 3⟩, 5)]
      ⟨⟨0, 3⟩, 9⟩ = decide ((5 : Nat) < 9) := by
  refine ⟨⟨by decide, by decide⟩, ?_⟩
  exact (is_before_spec (fun a b => decide (a.workchain = b.workchain))
    [(⟨0, 3⟩, 5)] ⟨⟨0, 3⟩, 9⟩ (by decide)).1 (⟨0, 3⟩, 5) (by decide) rfl

theorem mem_pushedPrevIds (intersect : ShardIdent → ShardIdent → Bool)
    (e : Edge) (info : BriefBlockInfo) (id : BlockIdExt)
    (h : id ∈ pushedPrevIds intersect e info) :
    is_before intersect e id = true := by
  rcases List.mem_append.mp h with h1 | h2
  · by_cases hb : is_before intersect e info.prev1 = true
    · simp [hb] at h1
      rwa [h1]
    · simp [hb] at h1
  · cases hp2 : info.prev2 with
    | none => rw [hp2] at h2; cases h2
    | some p =>
      rw [hp2] at h2
      by_cases hb : is_before intersect e p = true
      · simp [hb] at h2
        rwa [h2]
      · simp [hb] at h2

/-- Claim C10: when the edge has no entry for the id's exact shard and no
stored shard intersects it (in particular for the empty edge), `is_before`
returns false, and consequently the DAG walk of `make_blocks_step` never
pushes such a block id. -/
theorem is_before_no_intersection (intersect : ShardIdent → ShardIdent → Bool)
    (e : Edge) (id : BlockIdExt)
    (h1 : ∀ p ∈ e, p.1 ≠ id.shard_id)
    (h2 : ∀ p ∈ e, intersect id.shard_id p.1 = false) :
    is_before intersect e id = false ∧
    ∀ info : BriefBlockInfo, id ∉ pushedPrevIds intersect e info := by
  have hfind : findEntry id.shard_id e = none := findEntry_eq_none.mpr h1
  have hfind2 : e.find? (fun p => intersect id.shard_id p.1) = none :=
    List.find?_eq_none.mpr (fun p hp => by simp [h2 p hp])
  have hfalse : is_before intersect e id = false := by
    simp [is_before, hfind, hfind2]
  refine ⟨hfalse, fun info hmem => ?_⟩
  have := mem_pushedPrevIds intersect e info id hmem
  rw [hfalse] at this
  cases this

/-- Witness for claim C10 at the empty edge: `is_before` is false and no id
is ever pushed. -/
theorem is_before_no_intersection_witness :
    is_before (fun _ _ => true) [] ⟨⟨0, 3⟩, 9⟩ = false ∧
    ⟨⟨0, 3⟩, 9⟩ ∉ pushedPrevIds (fun _ _ => true) []
      ⟨7, ⟨⟨0, 3⟩, 9⟩, none⟩ := by
  have h := is_before_no_intersection (fun _ _ => true) [] ⟨⟨0, 3⟩, 9⟩
    (by intro p hp; cases hp) (by intro p hp; cases hp)
  exact ⟨h.1, h.2 ⟨7, ⟨⟨0, 3⟩, 9⟩, none⟩⟩

/-! ### Pending-message registry (src/subscription.rs) -/

/-- UInt256 values (account addresses, message hashes, cell hashes) are
opaque identities here. -/
abbrev Hash := Nat

/-- `PendingMessage { expire_at: u32, tx: Option<oneshot::Sender<...>> }`.
The sender is modelled by its numeric identity; `tx = none` after the sender
has been taken. -/
structure PendingMessage where
  expire_at : Nat
  tx : Option Nat
deriving DecidableEq

/-- `AccountPendingMessages = FxHashMap<UInt256, PendingMessage>`. -/
abbrev AccountPendingMessages := List (Hash × PendingMessage)

/-- `PendingMessages = FxDashMap<UInt256, AccountPendingMessages>`. -/
abbrev PendingMessages := List (Hash × AccountPendingMessages)

/-- The part of a decoded `ton_block::Transaction` the walker reads: the hash
of its inbound message, when there is one. -/
structure Transaction where
  in_msg : Option Hash
deriving DecidableEq

/-- `TransactionWithHash { hash, data }` as delivered to a waiter. -/
structure TransactionWithHash where
  hash : Hash
  data : Transaction
deriving DecidableEq

/-- One transaction slot of an account block: the transaction cell's
representation hash together with the decoded transaction.  Decoding failures
abort `process_block` with an error and are outside the claims, so cells
arrive decoded. -/
structure TxCell where
  repr_hash : Hash
  tx : Transaction
deriving DecidableEq

/-- One value pushed through a oneshot sender: the sender's identity and the
payload (`some` on a walker match, `none` from `PendingMessage::drop`). -/
abbrev Delivery := Nat × Option TransactionWithHash

/-- `MASTERCHAIN_ID`. -/
def MASTERCHAIN_ID : Int := -1

/-- `BASE_WORKCHAIN_ID`. -/
def BASE_WORKCHAIN_ID : Int := 0

/-- The two workchain buckets and the shared counter of a `Subscription`. -/
structure RegState where
  mc : PendingMessages
  sc : PendingMessages
  counter : Nat
deriving DecidableEq

/-- The bucket `send_message` selects for a workchain id (callers establish
`wc ∈ {MASTERCHAIN_ID, BASE_WORKCHAIN_ID}` first). -/
def bucketFor (wc : Int) (st : RegState) : PendingMessages :=
  if wc = MASTERCHAIN_ID then st.mc else st.sc

/-- Writes the selected bucket and the counter back into the state. -/
def setBucket (wc : Int) (outer : PendingMessages) (c : Nat) (st : RegState) :
    RegState :=
  if wc = MASTERCHAIN_ID then { st with mc := outer, counter := c }
  else { st with sc := outer, counter := c }

/-- `pending_messages.entry(dst).or_default()` followed by inserting the new
message into the per-account map. -/
def bucketInsert (dst h : Hash) (pm : PendingMessage) (outer : PendingMessages) :
    PendingMessages :=
  match findEntry dst outer with
  | some p => setKey dst (p.2 ++ [(h, pm)]) outer
  | none => outer ++ [(dst, [(h, pm)])]

/-- The rollback of `send_message` after a TCP submission failure:
```
match pending_messages.entry(dst) {
    Occupied(mut entry) => {
        entry.get_mut().remove(&message_hash);
        if entry.get().is_empty() { entry.remove(); }
    }
    Vacant(_) => { /* warn */ }
}
```
-/
def bucketRemoveRollback (dst h : Hash) (outer : PendingMessages) :
    PendingMessages :=
  match findEntry dst outer with
  | some p =>
    let inner2 := eraseKey h p.2
    if inner2.isEmpty then eraseKey dst outer else setKey dst inner2 outer
  | none => outer

/-- The error paths of `Subscription::send_message`. -/
inductive SendError where
  | expectedExternal
  | unsupportedWorkchain
  | alreadySent
  | tcpFailed
deriving DecidableEq

/-- `Subscription::send_message`, with the message already reduced to the
data the function reads: whether it is external-in (`extIn`), its destination
split into `(workchain, dst)`, its representation hash `msgHash`, plus the
caller's `expire_at`.  `sid` is the identity of the fresh oneshot channel and
`tcpOk` the outcome of `node_tcp_rpc.send_message`.  Returns the registry
state after the call together with the receiver id on success.  Note the
source increments the counter under the insert lock but does **not**
decrement it on the TCP rollback path. -/
def send_message (extIn : Bool) (workchain : Int) (dst msgHash : Hash)
    (expire_at sid : Nat) (tcpOk : Bool) (st : RegState) :
    RegState × Except SendError Nat :=
  if ¬ extIn then (st, .error .expectedExternal)
  else if workchain = MASTERCHAIN_ID ∨ workchain = BASE_WORKCHAIN_ID then
    let outer := bucketFor workchain st
    let inner := match findEntry dst outer with
      | some p => p.2
      | none => []
    match findEntry msgHash inner with
    | some _ => (st, .error .alreadySent)
    | none =>
      let outer1 := bucketInsert dst msgHash ⟨expire_at, some sid⟩ outer
      let c1 := ctrAdd st.counter
      if tcpOk then (setBucket workchain outer1 c1 st, .ok sid)
      else
        (setBucket workchain (bucketRemoveRollback dst msgHash outer1) c1 st,
          .error .tcpFailed)
  else (st, .error .unsupportedWorkchain)

/-- Lookup of a pending message under `(account, message_hash)` in a bucket. -/
def lookup2 (outer : PendingMessages) (dst h : Hash) : Option PendingMessage :=
  match findEntry dst outer with
  | some p => (findEntry h p.2).map (fun q => q.2)
  | none => none

/-- Claim C1 (code evaluation at the failing input): from the empty registry,
a base-workchain `send_message` whose TCP submission fails removes the
inserted entry and prunes the account's inner map — no entry remains — but
leaves the counter at 1 instead of restoring its pre-call value 0, so the
counter no longer equals the (zero) total size of the inner maps. -/
theorem send_message_rollback_eval :
    send_message true BASE_WORKCHAIN_ID 7 11 100 42 false ⟨[], [], 0⟩
      = (⟨[], [], 1⟩, .error .tcpFailed) := by
  rfl

/-- Claim C8: a `send_message` call for a `(workchain, account, message_hash)`
key that is already pending fails with the "message already sent" error and
returns the registry state unchanged — the first call's entry, its sender and
the counter are exactly as before the second call, whatever the TCP outcome
would have been. -/
theorem send_message_duplicate_spec (wc : Int) (dst h : Hash)
    (ea sid : Nat) (tcpOk : Bool) (st : RegState) (pm : PendingMessage)
    (hwc : wc = MASTERCHAIN_ID ∨ wc = BASE_WORKCHAIN_ID)
    (hmem : lookup2 (bucketFor wc st) dst h = some pm) :
    send_message true wc dst h ea sid tcpOk st = (st, .error .alreadySent) := by
  rw [lookup2] at hmem
  cases hfd : findEntry dst (bucketFor wc st) with
  | none => rw [hfd] at hmem; cases hmem
  | some p =>
    rw [hfd] at hmem
    obtain ⟨q, hq, _⟩ := Option.map_eq_some'.mp hmem
    rw [send_message]
    simp [hwc, hfd, hq]

/-- Witness for claim C8: a second submission of the pending message
`(BASE_WORKCHAIN_ID, account 7, hash 11)` fails and leaves the state intact. -/
theorem send_message_duplicate_witness :
    lookup2 (bucketFor BASE_WORKCHAIN_ID ⟨[], [(7, [(11, ⟨100, some 5⟩)])], 1⟩) 7 11
      = some ⟨100, some 5⟩ ∧
    send_message true BASE_WORKCHAIN_ID 7 11 50 9 true
        ⟨[], [(7, [(11, ⟨100, some 5⟩)])], 1⟩
      = (⟨[], [(7, [(11, ⟨100, some 5⟩)])], 1⟩, .error .alreadySent) := by
  refine ⟨by decide, ?_⟩
  exact send_message_duplicate_spec BASE_WORKCHAIN_ID 7 11 50 9 true
    ⟨[], [(7, [(11, ⟨100, some 5⟩)])], 1⟩ ⟨100, some 5⟩ (Or.inr rfl) (by decide)

/-! ### Expiry (src/subscription.rs, `Subscription::remove_expired_messages`
and `impl Drop for PendingMessage`) -/

/-- `PendingMessage::drop`: if the sender is still present, push the `None`
sentinel through it. -/
def deliverNone (pm : PendingMessage) (log : List Delivery) : List Delivery :=
  match pm.tx with
  | some sid => log ++ [(sid, none)]
  | none => log

/-- `is_invalid = message.expire_at < utime` of the inner `retain`. -/
def expiredPred (utime : Nat) (q : Hash × PendingMessage) : Bool :=
  decide (q.2.expire_at < utime)

/-- The inner `pending_messages.retain(\x7c_, message\x7c ...)`: drops every
expired entry (decrementing the counter and firing its destructor) and keeps
the rest in order. -/
def retainAcc (utime : Nat) :
    AccountPendingMessages → Nat → List Delivery →
      AccountPendingMessages × Nat × List Delivery
  | [], c, log => ([], c, log)
  | q :: rest, c, log =>
    if q.2.expire_at < utime then
      retainAcc utime rest (ctrSub c) (deliverNone q.2 log)
    else
      let r := retainAcc utime rest c log
      (q :: r.1, r.2.1, r.2.2)

/-- `Subscription::remove_expired_messages`: the outer `retain` runs the inner
one on every account map and drops the account entry when the filtered map is
empty. -/
def remove_expired_messages (utime : Nat) :
    PendingMessages → Nat → List Delivery →
      PendingMessages × Nat × List Delivery
  | [], c, log => ([], c, log)
  | p :: rest, c, log =>
    let r := retainAcc utime p.2 c log
    let r2 := remove_expired_messages utime rest r.2.1 r.2.2
    (if r.1.isEmpty then r2.1 else (p.1, r.1) :: r2.1, r2.2.1, r2.2.2)

/-- All `(account, message_hash, message)` entries of a bucket. -/
def entriesOf (outer : PendingMessages) : List (Hash × Hash × PendingMessage) :=
  outer.flatMap (fun p => p.2.map (fun q => (p.1, q.1, q.2)))

/-- Number of entries of a bucket that are expired at `utime`. -/
def expiredCount (utime : Nat) (outer : PendingMessages) : Nat :=
  (outer.map (fun p => p.2.countP (expiredPred utime))).sum

/-- The `None` deliveries the expired entries of one account map fire. -/
def accExpiredDeliveries (utime : Nat) (m : AccountPendingMessages) :
    List Delivery :=
  (m.filter (expiredPred utime)).filterMap
    (fun q => q.2.tx.map (fun s => (s, none)))

theorem ctrSub_eq (c : Nat) (h1 : 1 ≤ c) (h2 : c < USIZE) : ctrSub c = c - 1 := by
  have hU : 1 ≤ USIZE := by decide
  rw [ctrSub]
  have he : c + (USIZE - 1) = USIZE + (c - 1) := by omega
  rw [he, Nat.add_mod_left]
  exact Nat.mod_eq_of_lt (by omega)

theorem ctrSubIter_eq (k : Nat) :
    ∀ c : Nat, k ≤ c → c < USIZE → ctrSub^[k] c = c - k := by
  induction k with
  | zero => intro c _ _; simp
  | succ n ih =>
    intro c hk hc
    rw [Function.iterate_succ_apply, ctrSub_eq c (by omega) hc]
    rw [ih (c - 1) (by omega) (by omega)]
    omega

theorem retainAcc_eq (utime : Nat) (m : AccountPendingMessages) :
    ∀ c log, retainAcc utime m c log
      = (m.filter (fun q => ! expiredPred utime q),
         ctrSub^[m.countP (expiredPred utime)] c,
         log ++ accExpiredDeliveries utime m) := by
  induction m with
  | nil => intro c log; simp [retainAcc, accExpiredDeliveries]
  | cons q rest ih =>
    intro c log
    by_cases hq : q.2.expire_at < utime
    · have hp : expiredPred utime q = true := by simp [expiredPred, hq]
      rw [retainAcc, if_pos hq, ih]
      refine Prod.ext ?_ (Prod.ext ?_ ?_)
      · simp [hp]
      · simp only [List.countP_cons, hp, if_pos]
        rw [Function.iterate_succ_apply]
      · simp only [accExpiredDeliveries, List.filter_cons, hp, if_pos,
          List.filterMap_cons]
        cases htx : q.2.tx with
        | none => simp [deliverNone, htx, accExpiredDeliveries]
        | some s => simp [deliverNone, htx, accExpiredDeliveries]
    · have hp : expiredPred utime q = false := by simp [expiredPred, hq]
      rw [retainAcc, if_neg hq, ih]
      refine Prod.ext ?_ (Prod.ext ?_ ?_)
      · simp [hp]
      · simp [List.countP_cons, hp]
      · simp [accExpiredDeliveries, List.filter_cons, hp]

theorem remove_expired_eq (utime : Nat) (outer : PendingMessages) :
    ∀ c log, remove_expired_messages utime outer c log
      = (outer.filterMap (fun p =>
           if (p.2.filter (fun q => ! expiredPred utime q)).isEmpty then none
           else some (p.1, p.2.filter (fun q => ! expiredPred utime q))),
         ctrSub^[expiredCount utime outer] c,
         log ++ outer.flatMap (fun p => accExpiredDeliveries utime p.2)) := by
  induction outer with
  | nil => intro c log; simp [remove_expired_messages, expiredCount]
  | cons p rest ih =>
    intro c log
    rw [remove_expired_messages, retainAcc_eq, ih]
    refine Prod.ext ?_ (Prod.ext ?_ ?_)
    · simp only [List.filterMap_cons]
      by_cases he : (p.2.filter (fun q => ! expiredPred utime q)).isEmpty = true
      · simp [he]
      · simp [he]
    · simp only [expiredCount, List.map_cons, List.sum_cons]
      rw [Nat.add_comm, Function.iterate_add_apply]
    · simp [List.flatMap_cons, List.append_assoc]

theorem mem_entriesOf {outer : PendingMessages} {a h : Hash} {pm : PendingMessage} :
    (a, h, pm) ∈ entriesOf outer ↔ ∃ m, (a, m) ∈ outer ∧ (h, pm) ∈ m := by
  constructor
  · intro h1
    rw [entriesOf, List.mem_flatMap] at h1
    obtain ⟨p, hp, hmem⟩ := h1
    rw [List.mem_map] at hmem
    obtain ⟨q, hq, heq⟩ := hmem
    have hfst : p.1 = a := congrArg Prod.fst heq
    have hk : q.1 = h := congrArg (fun x => x.2.1) heq
    have hv : q.2 = pm := congrArg (fun x => x.2.2) heq
    refine ⟨p.2, ?_, ?_⟩
    · rwa [← hfst, Prod.mk.eta]
    · have hq2 : q = (h, pm) := by
        rw [← hk, ← hv]
      rwa [← hq2]
  · rintro ⟨m, hm, hq⟩
    rw [entriesOf, List.mem_flatMap]
    exact ⟨(a, m), hm, List.mem_map.mpr ⟨(h, pm), hq, rfl⟩⟩

/-- Claim C7: `remove_expired_messages(utime)` removes exactly the pending
entries with `expire_at < utime`; it decrements the counter once per removed
entry (so, counted without wrap, the counter drops by the number of expired
entries); every inner per-account map that becomes empty is removed from the
outer map; and each removed entry whose sender is still present delivers the
`None` sentinel to its waiter through that sender. -/
theorem remove_expired_spec (utime : Nat) (outer : PendingMessages) (c : Nat)
    (hk : expiredCount utime outer ≤ c) (hc : c < USIZE) :
    (∀ a h pm, (a, h, pm) ∈ entriesOf (remove_expired_messages utime outer c []).1 ↔
      ((a, h, pm) ∈ entriesOf outer ∧ ¬ pm.expire_at < utime)) ∧
    (∀ p ∈ (remove_expired_messages utime outer c []).1, p.2 ≠ []) ∧
    (remove_expired_messages utime outer c []).2.1 = c - expiredCount utime outer ∧
    (∀ a h pm sid, (a, h, pm) ∈ entriesOf outer → pm.expire_at < utime →
      pm.tx = some sid →
      (sid, (none : Option TransactionWithHash))
        ∈ (remove_expired_messages utime outer c []).2.2) := by
  rw [remove_expired_eq]
  refine ⟨?_, ?_, ?_, ?_⟩
  · intro a h pm
    constructor
    · intro hmem
      obtain ⟨m2, hm2, hq2⟩ := mem_entriesOf.mp hmem
      obtain ⟨p, hp, hg⟩ := List.mem_filterMap.mp hm2
      by_cases he : (p.2.filter (fun q => ! expiredPred utime q)).isEmpty = true
      · rw [if_pos he] at hg; cases hg
      · rw [if_neg he] at hg
        have hg2 := Option.some.inj hg
        have hfst : p.1 = a := congrArg Prod.fst hg2
        have hsnd : p.2.filter (fun q => ! expiredPred utime q) = m2 :=
          congrArg Prod.snd hg2
        rw [← hsnd] at hq2
        have hq3 := List.mem_filter.mp hq2
        refine ⟨mem_entriesOf.mpr ⟨p.2, ?_, hq3.1⟩, ?_⟩
        · rwa [← hfst, Prod.mk.eta]
        · have := hq3.2
          simp [expiredPred] at this
          omega
    · rintro ⟨hmem, hexp⟩
      obtain ⟨m, hm, hq⟩ := mem_entriesOf.mp hmem
      have hqf : (h, pm) ∈ m.filter (fun q => ! expiredPred utime q) :=
        List.mem_filter.mpr ⟨hq, by simp [expiredPred, hexp]⟩
      have hne : (m.filter (fun q => ! expiredPred utime q)).isEmpty = false := by
        cases hflt : m.filter (fun q => ! expiredPred utime q) with
        | nil => rw [hflt] at hqf; cases hqf
        | cons x xs => rfl
      refine mem_entriesOf.mpr ⟨m.filter (fun q => ! expiredPred utime q),
        List.mem_filterMap.mpr ⟨(a, m), hm, ?_⟩, hqf⟩
      simp [hne]
  · intro p hp
    obtain ⟨q, hq, hg⟩ := List.mem_filterMap.mp hp
    by_cases he : (q.2.filter (fun r => ! expiredPred utime r)).isEmpty = true
    · rw [if_pos he] at hg; cases hg
    · rw [if_neg he] at hg
      have hg2 := Option.some.inj hg
      have hsnd : q.2.filter (fun r => ! expiredPred utime r) = p.2 :=
        congrArg Prod.snd hg2
      rw [← hsnd]
      intro hnil
      rw [hnil] at he
      exact he rfl
  · exact ctrSubIter_eq (expiredCount utime outer) c hk hc
  · intro a h pm sid hmem hexp hsid
    obtain ⟨m, hm, hq⟩ := mem_entriesOf.mp hmem
    have hdel : (sid, (none : Option TransactionWithHash))
        ∈ accExpiredDeliveries utime m := by
      refine List.mem_filterMap.mpr ⟨(h, pm), ?_, ?_⟩
      · exact List.mem_filter.mpr ⟨hq, by simp [expiredPred, hexp]⟩
      · simp [hsid]
    have : (sid, (none : Option TransactionWithHash))
        ∈ outer.flatMap (fun p => accExpiredDeliveries utime p.2) :=
      List.mem_flatMap.mpr ⟨(a, m), hm, hdel⟩
    simpa using this

/-- Witness for claim C7: at `utime = 50`, from an account with one expired
entry (expires 3, sender 9) and one live entry (expires 100), the expired
entry's waiter receives the `None` sentinel. -/
theorem remove_expired_spec_witness :
    expiredCount 50 [(1, [(5, ⟨3, some 9⟩), (6, ⟨100, some 10⟩)])] ≤ 2 ∧
    (2 : Nat) < USIZE ∧
    (9, (none : Option TransactionWithHash))
      ∈ (remove_expired_messages 50
          [(1, [(5, ⟨3, some 9⟩), (6, ⟨100, some 10⟩)])] 2 []).2.2 := by
  refine ⟨by decide, by decide, ?_⟩
  exact (remove_expired_spec 50 [(1, [(5, ⟨3, some 9⟩), (6, ⟨100, some 10⟩)])] 2
    (by decide) (by decide)).2.2.2 1 5 ⟨3, some 9⟩ 9 (by decide) (by decide) rfl

/-! ### Block scanning (src/subscription.rs, `Subscription::process_block`) -/

/-- The walker's delivery on a match:
```
if let Some(channel) = pending_message.tx.take() {
    channel.send(Some(TransactionWithHash { hash, data })).ok();
}
```
-/
def deliverSome (pm : PendingMessage) (cell : TxCell) (log : List Delivery) :
    List Delivery :=
  match pm.tx with
  | some sid => log ++ [(sid, some ⟨cell.repr_hash, cell.tx⟩)]
  | none => log

/-- One transaction of the inner `iterate_slices_with_keys` closure: hash the
transaction cell, read the decoded transaction's `in_msg` hash, and on a hit
remove the pending entry, decrement the counter and deliver the result. -/
def processTx (st : AccountPendingMessages × Nat × List Delivery)
    (cell : TxCell) : AccountPendingMessages × Nat × List Delivery :=
  match cell.tx.in_msg with
  | none => st
  | some h =>
    match findEntry h st.1 with
    | none => st
    | some e => (eraseKey h st.1, ctrSub st.2.1, deliverSome e.2 cell st.2.2)

/-- The walk over one account block's transactions. -/
def processTxs (txs : List TxCell)
    (st : AccountPendingMessages × Nat × List Delivery) :
    AccountPendingMessages × Nat × List Delivery :=
  txs.foldl processTx st

/-- One account block of the outer `iterate_with_keys` closure: skip accounts
with no pending map (`pending_messages.get_mut(&address)` misses), otherwise
walk the transactions against the account's inner map.  Note the inner map is
written back even when it became empty — `process_block` does not prune. -/
def processAccountBlock (st : PendingMessages × Nat × List Delivery)
    (ab : Hash × List TxCell) : PendingMessages × Nat × List Delivery :=
  match findEntry ab.1 st.1 with
  | none => st
  | some p =>
    let r := processTxs ab.2 (p.2, st.2.1, st.2.2)
    (setKey ab.1 r.1 st.1, r.2.1, r.2.2)

/-- The fold of `process_block` over all account blocks. -/
def processBlocks (block : List (Hash × List TxCell))
    (st : PendingMessages × Nat × List Delivery) :
    PendingMessages × Nat × List Delivery :=
  block.foldl processAccountBlock st

/-- `Subscription::process_block`, with the block reduced to its
account-blocks view: account address → transaction cells, in iteration
order.  Returns the bucket, the counter and the deliveries fired. -/
def process_block (block : List (Hash × List TxCell))
    (pending_messages : PendingMessages) (c : Nat) :
    PendingMessages × Nat × List Delivery :=
  processBlocks block (pending_messages, c, [])

/-- The sender identities stored in an account map. -/
def sidsOfAcc (m : AccountPendingMessages) : List Nat :=
  m.filterMap (fun q => q.2.tx)

/-- The sender identities stored in a bucket. -/
def sidsOf (outer : PendingMessages) : List Nat :=
  outer.flatMap (fun p => sidsOfAcc p.2)

/-- Number of deliveries of a log that went to the given sender. -/
def countSid (log : List Delivery) (sid : Nat) : Nat :=
  (log.map Prod.fst).count sid

/-- Well-formedness of a pending bucket as maintained by the registry:
account keys are unique (it is a hash map), every stored entry still holds
its sender (senders are taken only when the entry is removed), and sender
identities are pairwise distinct (each oneshot channel is created fresh by
one `send_message` call). -/
def wfBucket (outer : PendingMessages) : Prop :=
  (outer.map Prod.fst).Nodup ∧
  (∀ p ∈ outer, ∀ q ∈ p.2, q.2.tx.isSome = true) ∧
  (sidsOf outer).Nodup

/-! Association-list lemmas for the scanning proofs. -/

theorem deliverSome_append (pm : PendingMessage) (cell : TxCell)
    (log : List Delivery) :
    deliverSome pm cell log = log ++ deliverSome pm cell [] := by
  cases htx : pm.tx <;> simp [deliverSome, htx]

theorem findEntry_eraseKey_self {κ α : Type} [DecidableEq κ] (k : κ)
    (m : List (κ × α)) : findEntry k (eraseKey k m) = none := by
  refine findEntry_eq_none.mpr ?_
  intro p hp
  have := (List.mem_filter.mp hp).2
  simpa using this

theorem findEntry_cons {κ α : Type} [DecidableEq κ] (q : κ × α)
    (rest : List (κ × α)) (k : κ) :
    findEntry k (q :: rest) = if q.1 = k then some q else findEntry k rest := by
  by_cases h : q.1 = k
  · rw [findEntry, List.find?_cons_of_pos _ (by simpa using h), if_pos h]
  · rw [findEntry, List.find?_cons_of_neg _ (by simpa using h), if_neg h]
    rfl

theorem eraseKey_cons {κ α : Type} [DecidableEq κ] (q : κ × α)
    (rest : List (κ × α)) (k : κ) :
    eraseKey k (q :: rest)
      = if q.1 = k then eraseKey k rest else q :: eraseKey k rest := by
  by_cases h : q.1 = k
  · simp [eraseKey, List.filter_cons, h]
  · simp [eraseKey, List.filter_cons, h]

theorem setKey_cons {κ α : Type} [DecidableEq κ] (q : κ × α)
    (rest : List (κ × α)) (k : κ) (v : α) :
    setKey k v (q :: rest)
      = (if q.1 = k then (k, v) else q) :: setKey k v rest := rfl

theorem findEntry_eraseKey_ne {κ α : Type} [DecidableEq κ] {j k : κ}
    (hne : j ≠ k) (m : List (κ × α)) :
    findEntry j (eraseKey k m) = findEntry j m := by
  induction m with
  | nil => rfl
  | cons q rest ih =>
    rw [eraseKey_cons, findEntry_cons]
    by_cases hq : q.1 = k
    · have h2 : ¬ q.1 = j := by rw [hq]; exact fun hh => hne hh.symm
      rw [if_pos hq, if_neg h2, ih]
    · rw [if_neg hq, findEntry_cons]
      by_cases hj : q.1 = j
      · rw [if_pos hj, if_pos hj]
      · rw [if_neg hj, if_neg hj, ih]

theorem eraseKey_sublist {κ α : Type} [DecidableEq κ] (k : κ)
    (m : List (κ × α)) : (eraseKey k m).Sublist m :=
  List.filter_sublist m

theorem findEntry_setKey_self {κ α : Type} [DecidableEq κ] {k : κ}
    {m : List (κ × α)} {p : κ × α} (h : findEntry k m = some p) (v : α) :
    findEntry k (setKey k v m) = some (k, v) := by
  induction m with
  | nil => cases h
  | cons q rest ih =>
    rw [setKey_cons, findEntry_cons]
    by_cases hq : q.1 = k
    · rw [if_pos hq]
      simp
    · rw [findEntry_cons, if_neg hq] at h
      rw [if_neg hq, if_neg hq]
      exact ih h

theorem findEntry_setKey_ne {κ α : Type} [DecidableEq κ] {j k : κ}
    (hne : j ≠ k) (v : α) (m : List (κ × α)) :
    findEntry j (setKey k v m) = findEntry j m := by
  induction m with
  | nil => rfl
  | cons q rest ih =>
    rw [setKey_cons, findEntry_cons, findEntry_cons]
    by_cases hq : q.1 = k
    · have hj : ¬ (k, v).1 = j := fun hh => hne hh.symm
      have hj2 : ¬ q.1 = j := by rw [hq]; exact fun hh => hne hh.symm
      rw [if_pos hq, if_neg hj, if_neg hj2, ih]
    · rw [if_neg hq]
      by_cases hj : q.1 = j
      · rw [if_pos hj, if_pos hj]
      · rw [if_neg hj, if_neg hj, ih]

theorem setKey_map_fst {κ α : Type} [DecidableEq κ] (k : κ) (v : α)
    (m : List (κ × α)) : (setKey k v m).map Prod.fst = m.map Prod.fst := by
  induction m with
  | nil => rfl
  | cons q rest ih =>
    rw [setKey_cons, List.map_cons, List.map_cons, ih]
    by_cases hq : q.1 = k
    · rw [if_pos hq]
      simp [hq]
    · rw [if_neg hq]

theorem setKey_of_not_mem {κ α : Type} [DecidableEq κ] {k : κ}
    {m : List (κ × α)} (h : k ∉ m.map Prod.fst) (v : α) : setKey k v m = m := by
  induction m with
  | nil => rfl
  | cons q rest ih =>
    have hq : ¬ q.1 = k := fun hh => h (by simp [← hh])
    have hrest : k ∉ rest.map Prod.fst := fun hh => h (by simp [hh])
    rw [setKey_cons, if_neg hq, ih hrest]

theorem mem_setKey {κ α : Type} [DecidableEq κ] {k : κ} {v : α}
    {m : List (κ × α)} {x : κ × α} (h : x ∈ setKey k v m) :
    x = (k, v) ∨ x ∈ m := by
  obtain ⟨q, hq, heq⟩ := List.mem_map.mp h
  by_cases hk : q.1 = k
  · rw [if_pos hk] at heq
    exact Or.inl heq.symm
  · rw [if_neg hk] at heq
    exact Or.inr (heq ▸ hq)

theorem processTxs_cons (t : TxCell) (ts : List TxCell)
    (st : AccountPendingMessages × Nat × List Delivery) :
    processTxs (t :: ts) st = processTxs ts (processTx st t) := rfl

theorem processTx_in_msg_none (st : AccountPendingMessages × Nat × List Delivery)
    (cell : TxCell) (h : cell.tx.in_msg = none) : processTx st cell = st := by
  simp [processTx, h]

theorem processTx_miss {st : AccountPendingMessages × Nat × List Delivery}
    {cell : TxCell} {h0 : Hash} (h : cell.tx.in_msg = some h0)
    (hf : findEntry h0 st.1 = none) : processTx st cell = st := by
  simp [processTx, h, hf]

theorem processTx_hit {st : AccountPendingMessages × Nat × List Delivery}
    {cell : TxCell} {h0 : Hash} {e : Hash × PendingMessage}
    (h : cell.tx.in_msg = some h0) (hf : findEntry h0 st.1 = some e) :
    processTx st cell
      = (eraseKey h0 st.1, ctrSub st.2.1, deliverSome e.2 cell st.2.2) := by
  simp [processTx, h, hf]

/-- The resulting inner map does not depend on the threaded counter or log. -/
theorem processTxs_map (txs : List TxCell) :
    ∀ (m : AccountPendingMessages) (c : Nat) (log : List Delivery),
    (processTxs txs (m, c, log)).1 = (processTxs txs (m, 0, [])).1 := by
  induction txs with
  | nil => intro m c log; rfl
  | cons t ts ih =>
    intro m c log
    cases him : t.tx.in_msg with
    | none =>
      rw [processTxs_cons, processTx_in_msg_none _ _ him,
          processTxs_cons, processTx_in_msg_none _ _ him, ih]
    | some h0 =>
      cases hf : findEntry h0 m with
      | none =>
        rw [processTxs_cons, processTx_miss him hf,
            processTxs_cons, processTx_miss him hf, ih]
      | some e =>
        rw [processTxs_cons, processTx_hit him hf,
            processTxs_cons, processTx_hit him hf,
            ih (eraseKey h0 m) (ctrSub c) (deliverSome e.2 t log),
            ih (eraseKey h0 m) (ctrSub 0) (deliverSome e.2 t [])]

/-- The deliveries fired by the walk extend the incoming log. -/
theorem processTxs_log (txs : List TxCell) :
    ∀ (m : AccountPendingMessages) (c : Nat) (log : List Delivery),
    (processTxs txs (m, c, log)).2.2 = log ++ (processTxs txs (m, 0, [])).2.2 := by
  induction txs with
  | nil => intro m c log; simp [processTxs]
  | cons t ts ih =>
    intro m c log
    cases him : t.tx.in_msg with
    | none =>
      rw [processTxs_cons, processTx_in_msg_none _ _ him,
          processTxs_cons, processTx_in_msg_none _ _ him, ih]
    | some h0 =>
      cases hf : findEntry h0 m with
      | none =>
        rw [processTxs_cons, processTx_miss him hf,
            processTxs_cons, processTx_miss him hf, ih]
      | some e =>
        rw [processTxs_cons, processTx_hit him hf,
            processTxs_cons, processTx_hit him hf,
            ih (eraseKey h0 m) (ctrSub c) (deliverSome e.2 t log),
            ih (eraseKey h0 m) (ctrSub 0) (deliverSome e.2 t []),
            deliverSome_append e.2 t log]
        simp [List.append_assoc]

/-- The resulting counter does not depend on the threaded log. -/
theorem processTxs_counter_log (txs : List TxCell) :
    ∀ (m : AccountPendingMessages) (c : Nat) (log : List Delivery),
    (processTxs txs (m, c, log)).2.1 = (processTxs txs (m, c, [])).2.1 := by
  induction txs with
  | nil => intro m c log; rfl
  | cons t ts ih =>
    intro m c log
    cases him : t.tx.in_msg with
    | none =>
      rw [processTxs_cons, processTx_in_msg_none _ _ him,
          processTxs_cons, processTx_in_msg_none _ _ him, ih]
    | some h0 =>
      cases hf : findEntry h0 m with
      | none =>
        rw [processTxs_cons, processTx_miss him hf,
            processTxs_cons, processTx_miss him hf, ih]
      | some e =>
        rw [processTxs_cons, processTx_hit him hf,
            processTxs_cons, processTx_hit him hf,
            ih (eraseKey h0 m) (ctrSub c) (deliverSome e.2 t log),
            ih (eraseKey h0 m) (ctrSub c) (deliverSome e.2 t [])]

/-- Lookup after the walk: a key is gone iff some transaction of the walk
matched it; unmatched keys keep their entries. -/
theorem processTxs_findEntry (txs : List TxCell) :
    ∀ (m : AccountPendingMessages) (c : Nat) (log : List Delivery) (j : Hash),
    findEntry j (processTxs txs (m, c, log)).1
      = if txs.any (fun t => decide (t.tx.in_msg = some j)) then none
        else findEntry j m := by
  induction txs with
  | nil => intro m c log j; simp [processTxs]
  | cons t ts ih =>
    intro m c log j
    cases him : t.tx.in_msg with
    | none =>
      rw [processTxs_cons, processTx_in_msg_none _ _ him, ih]
      simp [List.any_cons, him]
    | some h0 =>
      by_cases hj : h0 = j
      · subst hj
        cases hf : findEntry h0 m with
        | none =>
          rw [processTxs_cons, processTx_miss him hf, ih, hf]
          simp [List.any_cons, him]
        | some e =>
          rw [processTxs_cons, processTx_hit him hf, ih,
              findEntry_eraseKey_self]
          simp [List.any_cons, him]
      · have hj2 : ¬ (t.tx.in_msg = some j) := by
          rw [him]
          exact fun hh => hj (Option.some.inj hh)
        cases hf : findEntry h0 m with
        | none =>
          rw [processTxs_cons, processTx_miss him hf, ih]
          simp [List.any_cons, hj2]
        | some e =>
          have hne : j ≠ h0 := fun hh => hj hh.symm
          rw [processTxs_cons, processTx_hit him hf, ih,
              findEntry_eraseKey_ne hne]
          simp [List.any_cons, hj2]

/-- If a pending entry's key is matched by some transaction of the walk, the
walk pushes `Some {hash, data}` of a matching transaction through the entry's
sender. -/
theorem processTxs_delivers (txs : List TxCell) :
    ∀ (m : AccountPendingMessages) (c : Nat) (log : List Delivery)
      (h : Hash) (pm : PendingMessage) (sid : Nat),
    findEntry h m = some (h, pm) → pm.tx = some sid →
    (∃ cl ∈ txs, cl.tx.in_msg = some h) →
    ∃ cl ∈ txs, cl.tx.in_msg = some h ∧
      (sid, some ⟨cl.repr_hash, cl.tx⟩) ∈ (processTxs txs (m, c, log)).2.2 := by
  induction txs with
  | nil =>
    rintro m c log h pm sid _ _ ⟨cl, hcl, _⟩
    cases hcl
  | cons t ts ih =>
    intro m c log h pm sid hfind hsid hex
    by_cases hth : t.tx.in_msg = some h
    · rw [processTxs_cons, processTx_hit hth hfind]
      refine ⟨t, List.mem_cons_self t ts, hth, ?_⟩
      rw [processTxs_log]
      refine List.mem_append_left _ ?_
      simp [deliverSome, hsid]
    · obtain ⟨cl, hcl, hclm⟩ := hex
      have hcl2 : cl ∈ ts := by
        rcases List.mem_cons.mp hcl with hh | hh
        · exact absurd (hh ▸ hclm) hth
        · exact hh
      cases him : t.tx.in_msg with
      | none =>
        rw [processTxs_cons, processTx_in_msg_none _ _ him]
        obtain ⟨cl2, h1, h2, h3⟩ := ih m c log h pm sid hfind hsid ⟨cl, hcl2, hclm⟩
        exact ⟨cl2, List.mem_cons_of_mem _ h1, h2, h3⟩
      | some h0 =>
        have hne : h ≠ h0 := by
          intro hh
          rw [hh] at hth
          exact hth him
        cases hf : findEntry h0 m with
        | none =>
          rw [processTxs_cons, processTx_miss him hf]
          obtain ⟨cl2, h1, h2, h3⟩ := ih m c log h pm sid hfind hsid ⟨cl, hcl2, hclm⟩
          exact ⟨cl2, List.mem_cons_of_mem _ h1, h2, h3⟩
        | some e =>
          rw [processTxs_cons, processTx_hit him hf]
          have hfind2 : findEntry h (eraseKey h0 m) = some (h, pm) := by
            rw [findEntry_eraseKey_ne hne]
            exact hfind
          obtain ⟨cl2, h1, h2, h3⟩ := ih (eraseKey h0 m) (ctrSub c)
            (deliverSome e.2 t log) h pm sid hfind2 hsid ⟨cl, hcl2, hclm⟩
          exact ⟨cl2, List.mem_cons_of_mem _ h1, h2, h3⟩

theorem countSid_append (l1 l2 : List Delivery) (sid : Nat) :
    countSid (l1 ++ l2) sid = countSid l1 sid + countSid l2 sid := by
  simp [countSid, List.count_append]

theorem countSid_deliverSome (pm : PendingMessage) (cell : TxCell)
    (log : List Delivery) (sid : Nat) :
    countSid (deliverSome pm cell log) sid
      = countSid log sid + pm.tx.toList.count sid := by
  cases htx : pm.tx with
  | none => simp [deliverSome, htx, countSid]
  | some s => simp [deliverSome, htx, countSid, List.count_append]

theorem sidsOfAcc_cons (q : Hash × PendingMessage) (rest : AccountPendingMessages) :
    sidsOfAcc (q :: rest) = q.2.tx.toList ++ sidsOfAcc rest := by
  cases htx : q.2.tx <;> simp [sidsOfAcc, List.filterMap_cons, htx]

theorem sidsOfAcc_sublist {m1 m2 : AccountPendingMessages}
    (h : m1.Sublist m2) : (sidsOfAcc m1).Sublist (sidsOfAcc m2) :=
  h.filterMap _

theorem eraseKey_sids_count (sid : Nat) (m : AccountPendingMessages) :
    ∀ (h0 : Hash) (e : Hash × PendingMessage), findEntry h0 m = some e →
    (sidsOfAcc (eraseKey h0 m)).count sid + e.2.tx.toList.count sid
      ≤ (sidsOfAcc m).count sid := by
  induction m with
  | nil => intro h0 e h; cases h
  | cons q rest ih =>
    intro h0 e hfind
    rw [findEntry_cons] at hfind
    rw [eraseKey_cons]
    by_cases hq : q.1 = h0
    · rw [if_pos hq] at hfind ⊢
      have he : q = e := Option.some.inj hfind
      subst he
      rw [sidsOfAcc_cons, List.count_append]
      have hsub : (sidsOfAcc (eraseKey h0 rest)).count sid
          ≤ (sidsOfAcc rest).count sid :=
        (sidsOfAcc_sublist (eraseKey_sublist h0 rest)).count_le sid
      omega
    · rw [if_neg hq] at hfind ⊢
      rw [sidsOfAcc_cons, sidsOfAcc_cons, List.count_append, List.count_append]
      have := ih h0 e hfind
      omega

/-- Delivery accounting of the inner walk: new deliveries to a sender plus
its remaining occurrences in the map are bounded by its occurrences before
(each delivery consumes one stored sender). -/
theorem processTxs_countSid (sid : Nat) (txs : List TxCell) :
    ∀ (m : AccountPendingMessages) (c : Nat) (log : List Delivery),
    countSid (processTxs txs (m, c, log)).2.2 sid
        + (sidsOfAcc (processTxs txs (m, c, log)).1).count sid
      ≤ countSid log sid + (sidsOfAcc m).count sid := by
  induction txs with
  | nil => intro m c log; exact le_rfl
  | cons t ts ih =>
    intro m c log
    cases him : t.tx.in_msg with
    | none =>
      rw [processTxs_cons, processTx_in_msg_none _ _ him]
      exact ih m c log
    | some h0 =>
      cases hf : findEntry h0 m with
      | none =>
        rw [processTxs_cons, processTx_miss him hf]
        exact ih m c log
      | some e =>
        rw [processTxs_cons, processTx_hit him hf]
        dsimp only
        have h1 := ih (eraseKey h0 m) (ctrSub c) (deliverSome e.2 t log)
        have h2 := countSid_deliverSome e.2 t log sid
        have h3 := eraseKey_sids_count sid m h0 e hf
        omega

/-- With every stored sender present, the walk decrements the counter exactly
once per fired delivery. -/
theorem processTxs_counter (txs : List TxCell) :
    ∀ (m : AccountPendingMessages) (c : Nat) (log : List Delivery),
    (∀ q ∈ m, q.2.tx.isSome = true) →
    ∃ k, (processTxs txs (m, c, log)).2.1 = ctrSub^[k] c ∧
      (processTxs txs (m, c, log)).2.2.length = log.length + k := by
  induction txs with
  | nil => intro m c log _; exact ⟨0, rfl, by simp [processTxs]⟩
  | cons t ts ih =>
    intro m c log hsome
    cases him : t.tx.in_msg with
    | none =>
      rw [processTxs_cons, processTx_in_msg_none _ _ him]
      exact ih m c log hsome
    | some h0 =>
      cases hf : findEntry h0 m with
      | none =>
        rw [processTxs_cons, processTx_miss him hf]
        exact ih m c log hsome
      | some e =>
        have hmem := (findEntry_some hf).1
        have hs : e.2.tx.isSome = true := hsome e hmem
        obtain ⟨s0, hs0⟩ := Option.isSome_iff_exists.mp hs
        have hlen : (deliverSome e.2 t log).length = log.length + 1 := by
          simp [deliverSome, hs0]
        have hsome2 : ∀ q ∈ eraseKey h0 m, q.2.tx.isSome = true :=
          fun q hq => hsome q (List.mem_of_mem_filter hq)
        obtain ⟨k, hk1, hk2⟩ :=
          ih (eraseKey h0 m) (ctrSub c) (deliverSome e.2 t log) hsome2
        refine ⟨k + 1, ?_, ?_⟩
        · rw [processTxs_cons, processTx_hit him hf, hk1,
            ← Function.iterate_succ_apply]
        · rw [processTxs_cons, processTx_hit him hf, hk2, hlen]
          omega

/-- The walk only removes entries: the resulting inner map is a sublist. -/
theorem processTxs_map_sublist (txs : List TxCell) :
    ∀ (m : AccountPendingMessages) (c : Nat) (log : List Delivery),
    ((processTxs txs (m, c, log)).1).Sublist m := by
  induction txs with
  | nil => intro m c log; exact List.Sublist.refl m
  | cons t ts ih =>
    intro m c log
    cases him : t.tx.in_msg with
    | none =>
      rw [processTxs_cons, processTx_in_msg_none _ _ him]
      exact ih m c log
    | some h0 =>
      cases hf : findEntry h0 m with
      | none =>
        rw [processTxs_cons, processTx_miss him hf]
        exact ih m c log
      | some e =>
        rw [processTxs_cons, processTx_hit him hf]
        exact (ih (eraseKey h0 m) (ctrSub c) (deliverSome e.2 t log)).trans
          (eraseKey_sublist h0 m)

theorem processBlocks_cons (ab : Hash × List TxCell)
    (rest : List (Hash × List TxCell)) (st : PendingMessages × Nat × List Delivery) :
    processBlocks (ab :: rest) st = processBlocks rest (processAccountBlock st ab) := rfl

theorem processAccountBlock_miss {st : PendingMessages × Nat × List Delivery}
    {ab : Hash × List TxCell} (hf : findEntry ab.1 st.1 = none) :
    processAccountBlock st ab = st := by
  simp [processAccountBlock, hf]

theorem processAccountBlock_hit {st : PendingMessages × Nat × List Delivery}
    {ab : Hash × List TxCell} {p : Hash × AccountPendingMessages}
    (hf : findEntry ab.1 st.1 = some p) :
    processAccountBlock st ab
      = (setKey ab.1 (processTxs ab.2 (p.2, st.2.1, st.2.2)).1 st.1,
         (processTxs ab.2 (p.2, st.2.1, st.2.2)).2.1,
         (processTxs ab.2 (p.2, st.2.1, st.2.2)).2.2) := by
  simp [processAccountBlock, hf]

/-- The resulting bucket does not depend on the threaded counter or log. -/
theorem processBlocks_map (block : List (Hash × List TxCell)) :
    ∀ (outer : PendingMessages) (c : Nat) (log : List Delivery),
    (processBlocks block (outer, c, log)).1 = (processBlocks block (outer, 0, [])).1 := by
  induction block with
  | nil => intro outer c log; rfl
  | cons ab rest ih =>
    intro outer c log
    cases hf : findEntry ab.1 outer with
    | none =>
      rw [processBlocks_cons, processAccountBlock_miss hf,
          processBlocks_cons, processAccountBlock_miss hf, ih]
    | some p =>
      rw [processBlocks_cons, processAccountBlock_hit hf,
          processBlocks_cons, processAccountBlock_hit hf]
      dsimp only
      rw [processTxs_map ab.2 p.2 c log,
          ih (setKey ab.1 ((processTxs ab.2 (p.2, 0, [])).1) outer)
            ((processTxs ab.2 (p.2, c, log)).2.1)
            ((processTxs ab.2 (p.2, c, log)).2.2),
          ih (setKey ab.1 ((processTxs ab.2 (p.2, 0, [])).1) outer)
            ((processTxs ab.2 (p.2, 0, [])).2.1)
            ((processTxs ab.2 (p.2, 0, [])).2.2)]

/-- The deliveries fired by `process_block` extend the incoming log. -/
theorem processBlocks_log (block : List (Hash × List TxCell)) :
    ∀ (outer : PendingMessages) (c : Nat) (log : List Delivery),
    (processBlocks block (outer, c, log)).2.2
      = log ++ (processBlocks block (outer, 0, [])).2.2 := by
  induction block with
  | nil => intro outer c log; simp [processBlocks]
  | cons ab rest ih =>
    intro outer c log
    cases hf : findEntry ab.1 outer with
    | none =>
      rw [processBlocks_cons, processAccountBlock_miss hf,
          processBlocks_cons, processAccountBlock_miss hf, ih]
    | some p =>
      rw [processBlocks_cons, processAccountBlock_hit hf,
          processBlocks_cons, processAccountBlock_hit hf]
      dsimp only
      rw [processTxs_map ab.2 p.2 c log,
          processTxs_log ab.2 p.2 c log,
          ih (setKey ab.1 ((processTxs ab.2 (p.2, 0, [])).1) outer)
            ((processTxs ab.2 (p.2, c, log)).2.1)
            (log ++ (processTxs ab.2 (p.2, 0, [])).2.2),
          ih (setKey ab.1 ((processTxs ab.2 (p.2, 0, [])).1) outer)
            ((processTxs ab.2 (p.2, 0, [])).2.1)
            ((processTxs ab.2 (p.2, 0, [])).2.2)]
      simp [List.append_assoc]

/-- The resulting counter does not depend on the threaded log. -/
theorem processBlocks_counter_log (block : List (Hash × List TxCell)) :
    ∀ (outer : PendingMessages) (c : Nat) (log : List Delivery),
    (processBlocks block (outer, c, log)).2.1
      = (processBlocks block (outer, c, [])).2.1 := by
  induction block with
  | nil => intro outer c log; rfl
  | cons ab rest ih =>
    intro outer c log
    cases hf : findEntry ab.1 outer with
    | none =>
      rw [processBlocks_cons, processAccountBlock_miss hf,
          processBlocks_cons, processAccountBlock_miss hf, ih]
    | some p =>
      rw [processBlocks_cons, processAccountBlock_hit hf,
          processBlocks_cons, processAccountBlock_hit hf]
      dsimp only
      rw [processTxs_map ab.2 p.2 c log,
          processTxs_counter_log ab.2 p.2 c log,
          processTxs_map ab.2 p.2 c [],
          ih (setKey ab.1 ((processTxs ab.2 (p.2, 0, [])).1) outer)
            ((processTxs ab.2 (p.2, c, [])).2.1)
            ((processTxs ab.2 (p.2, c, log)).2.2),
          ih (setKey ab.1 ((processTxs ab.2 (p.2, 0, [])).1) outer)
            ((processTxs ab.2 (p.2, c, [])).2.1)
            ((processTxs ab.2 (p.2, c, [])).2.2)]

/-- Accounts not named by the block are untouched. -/
theorem processBlocks_findEntry_frame (block : List (Hash × List TxCell)) :
    ∀ (outer : PendingMessages) (c : Nat) (log : List Delivery) (a : Hash),
    a ∉ block.map Prod.fst →
    findEntry a (processBlocks block (outer, c, log)).1 = findEntry a outer := by
  induction block with
  | nil => intro outer c log a _; rfl
  | cons ab rest ih =>
    intro outer c log a ha
    have hane : a ≠ ab.1 := by
      intro hh
      exact ha (by simp [hh])
    have harest : a ∉ rest.map Prod.fst := by
      intro hh
      exact ha (by simp [hh])
    cases hf : findEntry ab.1 outer with
    | none =>
      rw [processBlocks_cons, processAccountBlock_miss hf, ih _ _ _ _ harest]
    | some p =>
      rw [processBlocks_cons, processAccountBlock_hit hf]
      dsimp only
      rw [ih _ _ _ _ harest, findEntry_setKey_ne hane]

/-- After `process_block`, a block-listed account's inner map is exactly the
inner walk's result. -/
theorem processBlocks_findEntry_acc (block : List (Hash × List TxCell)) :
    ∀ (outer : PendingMessages) (c : Nat) (log : List Delivery) (a : Hash)
      (txs : List TxCell) (inner : AccountPendingMessages),
    (block.map Prod.fst).Nodup → (a, txs) ∈ block →
    findEntry a outer = some (a, inner) →
    findEntry a (processBlocks block (outer, c, log)).1
      = some (a, (processTxs txs (inner, 0, [])).1) := by
  induction block with
  | nil => intro outer c log a txs inner _ hab _; cases hab
  | cons ab rest ih =>
    intro outer c log a txs inner hbn hab hacc
    rcases List.mem_cons.mp hab with heq | hmem
    · have ha1 : ab.1 = a := by rw [← heq]
      have ha2 : ab.2 = txs := by rw [← heq]
      have hf : findEntry ab.1 outer = some (a, inner) := by
        rw [ha1]; exact hacc
      rw [processBlocks_cons, processAccountBlock_hit hf]
      dsimp only
      have hna : a ∉ rest.map Prod.fst := by
        have h1 := (List.nodup_cons.mp hbn).1
        rwa [ha1] at h1
      rw [processBlocks_findEntry_frame rest _ _ _ a hna, ha1, ha2,
          findEntry_setKey_self hacc, processTxs_map txs inner c log]
    · have h1 : a ∈ rest.map Prod.fst := List.mem_map_of_mem Prod.fst hmem
      have hane : a ≠ ab.1 := by
        intro hh
        exact (List.nodup_cons.mp hbn).1 (hh ▸ h1)
      cases hf : findEntry ab.1 outer with
      | none =>
        rw [processBlocks_cons, processAccountBlock_miss hf]
        exact ih outer c log a txs inner (List.nodup_cons.mp hbn).2 hmem hacc
      | some p =>
        rw [processBlocks_cons, processAccountBlock_hit hf]
        dsimp only
        have hacc2 : findEntry a
            (setKey ab.1 ((processTxs ab.2 (p.2, c, log)).1) outer)
            = some (a, inner) := by
          rw [findEntry_setKey_ne hane]
          exact hacc
        exact ih _ _ _ a txs inner (List.nodup_cons.mp hbn).2 hmem hacc2

theorem sidsOf_cons (p : Hash × AccountPendingMessages) (rest : PendingMessages) :
    sidsOf (p :: rest) = sidsOfAcc p.2 ++ sidsOf rest := by
  simp [sidsOf, List.flatMap_cons]

/-- Replacing one account's inner map trades its sender occurrences for the
new map's, leaving the other accounts' occurrences alone. -/
theorem setKey_sids_count (sid : Nat) (outer : PendingMessages) :
    ∀ (a0 : Hash) (inner0 v : AccountPendingMessages),
    (outer.map Prod.fst).Nodup →
    findEntry a0 outer = some (a0, inner0) →
    (sidsOf (setKey a0 v outer)).count sid + (sidsOfAcc inner0).count sid
      = (sidsOf outer).count sid + (sidsOfAcc v).count sid := by
  induction outer with
  | nil => intro a0 i v _ h; cases h
  | cons q rest ih =>
    intro a0 inner0 v hnd hfind
    rw [findEntry_cons] at hfind
    rw [setKey_cons]
    by_cases hq : q.1 = a0
    · rw [if_pos hq] at hfind ⊢
      have heq : q = (a0, inner0) := Option.some.inj hfind
      have hna : a0 ∉ rest.map Prod.fst := by
        have h1 := (List.nodup_cons.mp hnd).1
        rwa [hq] at h1
      rw [setKey_of_not_mem hna v, sidsOf_cons, sidsOf_cons,
          List.count_append, List.count_append]
      have h2 : q.2 = inner0 := congrArg Prod.snd heq
      rw [h2]
      dsimp only
      omega
    · rw [if_neg hq] at hfind ⊢
      rw [sidsOf_cons, sidsOf_cons, List.count_append, List.count_append]
      have := ih a0 inner0 v (List.nodup_cons.mp hnd).2 hfind
      omega

/-- Deliveries to one sender across the whole block are bounded by that
sender's occurrences in the bucket. -/
theorem processBlocks_countSid (sid : Nat) (block : List (Hash × List TxCell)) :
    ∀ (outer : PendingMessages) (c : Nat) (log : List Delivery),
    (outer.map Prod.fst).Nodup →
    countSid (processBlocks block (outer, c, log)).2.2 sid
      ≤ countSid log sid + (sidsOf outer).count sid := by
  induction block with
  | nil => intro outer c log _; exact Nat.le_add_right _ _
  | cons ab rest ih =>
    intro outer c log hnd
    cases hf : findEntry ab.1 outer with
    | none =>
      rw [processBlocks_cons, processAccountBlock_miss hf]
      exact ih outer c log hnd
    | some p =>
      have hp1 : p.1 = ab.1 := (findEntry_some hf).2
      have hf2 : findEntry ab.1 outer = some (ab.1, p.2) := by
        rw [hf, ← hp1]
      rw [processBlocks_cons, processAccountBlock_hit hf]
      dsimp only
      have hin := processTxs_countSid sid ab.2 p.2 c log
      have hsb := setKey_sids_count sid outer ab.1 p.2
        ((processTxs ab.2 (p.2, c, log)).1) hnd hf2
      have hnd2 : ((setKey ab.1 ((processTxs ab.2 (p.2, c, log)).1) outer).map
          Prod.fst).Nodup := by
        rw [setKey_map_fst]; exact hnd
      have hih := ih (setKey ab.1 ((processTxs ab.2 (p.2, c, log)).1) outer)
        ((processTxs ab.2 (p.2, c, log)).2.1)
        ((processTxs ab.2 (p.2, c, log)).2.2) hnd2
      omega

/-- `process_block` delivers the matched transaction to the matched entry's
sender. -/
theorem processBlocks_delivers (block : List (Hash × List TxCell)) :
    ∀ (outer : PendingMessages) (c : Nat) (log : List Delivery) (a : Hash)
      (txs : List TxCell) (inner : AccountPendingMessages)
      (h : Hash) (pm : PendingMessage) (sid : Nat),
    (block.map Prod.fst).Nodup → (a, txs) ∈ block →
    findEntry a outer = some (a, inner) →
    findEntry h inner = some (h, pm) → pm.tx = some sid →
    (∃ cl ∈ txs, cl.tx.in_msg = some h) →
    ∃ cl ∈ txs, cl.tx.in_msg = some h ∧
      (sid, some ⟨cl.repr_hash, cl.tx⟩) ∈ (processBlocks block (outer, c, log)).2.2 := by
  induction block with
  | nil => intro outer c log a txs inner h pm sid _ hab _ _ _ _; cases hab
  | cons ab rest ih =>
    intro outer c log a txs inner h pm sid hbn hab hacc hpm hsid hex
    rcases List.mem_cons.mp hab with heq | hmem
    · have ha1 : ab.1 = a := by rw [← heq]
      have ha2 : ab.2 = txs := by rw [← heq]
      have hf : findEntry ab.1 outer = some (a, inner) := by
        rw [ha1]; exact hacc
      rw [processBlocks_cons, processAccountBlock_hit hf]
      dsimp only
      have hex2 : ∃ cl ∈ ab.2, cl.tx.in_msg = some h := by
        rw [ha2]; exact hex
      obtain ⟨cl, hclmem, hclmsg, hclin⟩ :=
        processTxs_delivers ab.2 inner c log h pm sid hpm hsid hex2
      refine ⟨cl, ha2 ▸ hclmem, hclmsg, ?_⟩
      rw [processBlocks_log]
      exact List.mem_append_left _ hclin
    · have h1 : a ∈ rest.map Prod.fst := List.mem_map_of_mem Prod.fst hmem
      have hane : a ≠ ab.1 := by
        intro hh
        exact (List.nodup_cons.mp hbn).1 (hh ▸ h1)
      cases hf : findEntry ab.1 outer with
      | none =>
        rw [processBlocks_cons, processAccountBlock_miss hf]
        exact ih outer c log a txs inner h pm sid
          (List.nodup_cons.mp hbn).2 hmem hacc hpm hsid hex
      | some p =>
        rw [processBlocks_cons, processAccountBlock_hit hf]
        dsimp only
        have hacc2 : findEntry a
            (setKey ab.1 ((processTxs ab.2 (p.2, c, log)).1) outer)
            = some (a, inner) := by
          rw [findEntry_setKey_ne hane]
          exact hacc
        exact ih _ _ _ a txs inner h pm sid
          (List.nodup_cons.mp hbn).2 hmem hacc2 hpm hsid hex

/-- With every stored sender present, `process_block` decrements the counter
exactly once per fired delivery. -/
theorem processBlocks_counter (block : List (Hash × List TxCell)) :
    ∀ (outer : PendingMessages) (c : Nat) (log : List Delivery),
    (∀ p ∈ outer, ∀ q ∈ p.2, q.2.tx.isSome = true) →
    ∃ k, (processBlocks block (outer, c, log)).2.1 = ctrSub^[k] c ∧
      (processBlocks block (outer, c, log)).2.2.length = log.length + k := by
  induction block with
  | nil => intro outer c log _; exact ⟨0, rfl, by simp [processBlocks]⟩
  | cons ab rest ih =>
    intro outer c log hsome
    cases hf : findEntry ab.1 outer with
    | none =>
      rw [processBlocks_cons, processAccountBlock_miss hf]
      exact ih outer c log hsome
    | some p =>
      have hpmem : p ∈ outer := (findEntry_some hf).1
      have hsome_in : ∀ q ∈ p.2, q.2.tx.isSome = true := hsome p hpmem
      obtain ⟨k1, hk1c, hk1l⟩ := processTxs_counter ab.2 p.2 c log hsome_in
      have hsome2 : ∀ r ∈ setKey ab.1 ((processTxs ab.2 (p.2, c, log)).1) outer,
          ∀ q ∈ r.2, q.2.tx.isSome = true := by
        intro r hr q hq
        rcases mem_setKey hr with hre | hro
        · have hq2 : q ∈ p.2 := by
            have hsub := processTxs_map_sublist ab.2 p.2 c log
            have : q ∈ (processTxs ab.2 (p.2, c, log)).1 := by
              rw [hre] at hq
              exact hq
            exact hsub.subset this
          exact hsome_in q hq2
        · exact hsome r hro q hq
      obtain ⟨k2, hk2c, hk2l⟩ := ih
        (setKey ab.1 ((processTxs ab.2 (p.2, c, log)).1) outer)
        ((processTxs ab.2 (p.2, c, log)).2.1)
        ((processTxs ab.2 (p.2, c, log)).2.2) hsome2
      refine ⟨k1 + k2, ?_, ?_⟩
      · rw [processBlocks_cons, processAccountBlock_hit hf]
        dsimp only
        rw [hk2c, hk1c, ← Function.iterate_add_apply, Nat.add_comm k2 k1]
      · rw [processBlocks_cons, processAccountBlock_hit hf]
        dsimp only
        rw [hk2l, hk1l]
        omega

/-- Claim C5: for every block processed against a well-formed pending bucket
and every transaction of the block whose input-message hash equals the key of
a pending entry of that account, `process_block`
- removes exactly that entry: after the call the account's map answers `none`
  precisely for the keys matched by some transaction of that account's list,
  and keeps every other entry unchanged (accounts not in the block are
  untouched);
- delivers `Some {hash := transaction cell hash, data := decoded transaction}`
  through the entry's stored sender, for a transaction whose `in_msg` hash
  equals the pending message hash;
- the waiter receives exactly one delivery on its sender during the call
  (at most one `Some`);
- decrements the counter once per fired delivery: the final counter is the
  initial one minus the number of deliveries. -/
theorem process_block_spec
    (block : List (Hash × List TxCell)) (outer : PendingMessages) (c : Nat)
    (a h : Hash) (txs : List TxCell) (inner : AccountPendingMessages)
    (pm : PendingMessage) (sid : Nat)
    (hwf : wfBucket outer)
    (hbn : (block.map Prod.fst).Nodup)
    (hab : (a, txs) ∈ block)
    (hacc : findEntry a outer = some (a, inner))
    (hpm : findEntry h inner = some (h, pm))
    (hsid : pm.tx = some sid)
    (hmatch : ∃ cl ∈ txs, cl.tx.in_msg = some h)
    (hlen : (process_block block outer c).2.2.length ≤ c)
    (hc : c < USIZE) :
    (∀ j : Hash, lookup2 (process_block block outer c).1 a j
        = if txs.any (fun t => decide (t.tx.in_msg = some j)) then none
          else lookup2 outer a j) ∧
    (∀ a2 : Hash, a2 ∉ block.map Prod.fst →
        findEntry a2 (process_block block outer c).1 = findEntry a2 outer) ∧
    (∃ cl ∈ txs, cl.tx.in_msg = some h ∧
        (sid, some ⟨cl.repr_hash, cl.tx⟩) ∈ (process_block block outer c).2.2) ∧
    countSid (process_block block outer c).2.2 sid = 1 ∧
    (process_block block outer c).2.1
      = c - (process_block block outer c).2.2.length := by
  obtain ⟨hnd, hall, hsids⟩ := hwf
  simp only [process_block] at hlen ⊢
  have haccF := processBlocks_findEntry_acc block outer c [] a txs inner hbn hab hacc
  have hdeliver := processBlocks_delivers block outer c [] a txs inner h pm sid
    hbn hab hacc hpm hsid hmatch
  refine ⟨?_, ?_, hdeliver, ?_, ?_⟩
  · intro j
    rw [lookup2, haccF]
    dsimp only
    rw [processTxs_findEntry txs inner 0 [] j]
    by_cases hb : txs.any (fun t => decide (t.tx.in_msg = some j)) = true
    · simp [hb]
    · simp only [Bool.not_eq_true] at hb
      rw [hb]
      simp only [Bool.false_eq_true, if_false, lookup2, hacc]
  · intro a2 ha2
    exact processBlocks_findEntry_frame block outer c [] a2 ha2
  · have hbound := processBlocks_countSid sid block outer c [] hnd
    have hone : (sidsOf outer).count sid ≤ 1 :=
      List.nodup_iff_count_le_one.mp hsids sid
    obtain ⟨cl, _, _, hin⟩ := hdeliver
    have hmm : sid ∈ ((processBlocks block (outer, c, [])).2.2).map Prod.fst :=
      List.mem_map_of_mem Prod.fst hin
    have hpos : 0 < countSid (processBlocks block (outer, c, [])).2.2 sid := by
      rw [countSid]
      exact List.count_pos_iff.mpr hmm
    have hzero : countSid ([] : List Delivery) sid = 0 := rfl
    omega
  · obtain ⟨k, hkc, hkl⟩ := processBlocks_counter block outer c [] hall
    simp only [List.length_nil, Nat.zero_add] at hkl
    rw [hkc, hkl, ctrSubIter_eq k c (by omega) hc]

/-- Witness for claim C5: a block carrying one transaction (cell hash 99)
whose in-message hash 5 matches the single pending entry of account 1 with
sender 77; the sender receives exactly one delivery. -/
theorem process_block_spec_witness :
    wfBucket [(1, [(5, ⟨10, some 77⟩)])] ∧
    countSid (process_block [(1, [⟨99, ⟨some 5⟩⟩])]
      [(1, [(5, ⟨10, some 77⟩)])] 1).2.2 77 = 1 := by
  have hwf : wfBucket [(1, [(5, ⟨10, some 77⟩)])] := by
    refine ⟨?_, ?_, ?_⟩ <;> decide
  refine ⟨hwf, ?_⟩
  exact (process_block_spec [(1, [⟨99, ⟨some 5⟩⟩])] [(1, [(5, ⟨10, some 77⟩)])] 1
    1 5 [⟨99, ⟨some 5⟩⟩] [(5, ⟨10, some 77⟩)] ⟨10, some 77⟩ 77
    hwf (by decide) (by decide) (by decide) (by decide) rfl
    ⟨⟨99, ⟨some 5⟩⟩, by decide, by decide⟩ (by decide) (by decide)).2.2.2.1

end StvrSpec
